import Mathlib

/-!
Verification of the Contour model-lifecycle subsystem
(`thonny/plugins/llama_download.py`, `thonny/plugins/pydantic_ai_assistant.py`,
`scripts/download_llama_model.py`) against its natural-language specification.

The Python code is shallowly embedded: pure string/path manipulation is
translated to executable Lean functions over `String` / `List Char` /
`List String`; the filesystem, the network and the configuration store are
passed explicitly as values; background threads are modelled by an explicit
event-step relation.  Python string builtins (`str.lower`, `str.endswith`,
`str.strip`, truthiness of strings) are given direct char-list
implementations, since they are CPython builtins external to the repository.
-/

namespace Contour

/-- Python `str.lower()` (ASCII case folding, which is all the code relies on:
the only compared strings are ASCII file extensions). -/
def strToLower (s : String) : String := String.mk (s.toList.map Char.toLower)

/-- Python `str.endswith(suf)`. -/
def strEndsWith (s suf : String) : Bool := suf.toList.reverse.isPrefixOf s.toList.reverse

/-- Python `str.strip()` (strip whitespace from both ends). -/
def strTrim (s : String) : String :=
  String.mk (((s.toList.dropWhile Char.isWhitespace).reverse.dropWhile Char.isWhitespace).reverse)

/-- Python `a or b` on strings: the empty string is falsy. -/
def pyOr (a b : String) : String := if a = "" then b else a

/-! ## Filesystem paths (for `delete_model`)

An absolute POSIX path is modelled as its list of components (`/a/b/c` is
`["a","b","c"]`); a possibly-relative input path carries an `absolute` flag.
Components are the segments between `/` separators, so they never contain
`/`; traversal is expressed with literal `".."`/`"."` components.  On this
representation, `os.path.normpath ∘ os.path.abspath` becomes `resolvePath`
and the string test `path.startswith(dir + os.sep)` becomes "the components
of `dir` are a proper prefix of the components of `path`". -/

/-- A path as passed to `delete_model`: possibly relative, possibly containing
`"."` / `".."` / empty components. -/
structure PyPath where
  absolute : Bool
  comps : List String
deriving DecidableEq, Repr

/-- Model of `os.path.normpath` on an absolute path's components: drops empty and `"."`
components, and makes `".."` remove the preceding component (at the root,
`".."` is dropped), exactly as `posixpath.normpath` does for absolute paths. -/
def normAbsComps (cs : List String) : List String :=
  cs.foldl
    (fun st c =>
      if c = "" ∨ c = "." then st
      else if c = ".." then st.dropLast
      else st ++ [c])
    []

/-- Model of `os.path.normpath(os.path.abspath(p))` given the process working directory
`cwd` (itself absolute and normalized): relative paths are joined onto `cwd`
first, then normalized. -/
def resolvePath (cwd : List String) (p : PyPath) : List String :=
  normAbsComps (if p.absolute then p.comps else cwd ++ p.comps)

/-- Model of `path.lower().endswith(".gguf")` on a normalized absolute path: since
`".gguf"` contains no `/`, the whole-string test is equivalent to testing the
last component (for the root path `[]` it is `False`). -/
def endsWithGguf (comps : List String) : Bool :=
  strEndsWith (strToLower (comps.getLast?.getD "")) ".gguf"

/-- The regular files currently on disk, as a list of normalized absolute
paths (component lists). -/
abbrev FileSys := List (List String)

/-- The normalized absolute models directory,
`os.path.normpath(os.path.abspath(os.path.join(get_thonny_user_dir(), "models")))`,
with `userDir` the (absolute, component-list) result of `get_thonny_user_dir()`. -/
def modelsDirAbs (userDir : List String) : List String :=
  normAbsComps (userDir ++ ["models"])

/-- Embedding of `llama_download.delete_model(path)`.  Returns the boolean result and the
filesystem after the call (`os.remove` deletes exactly the given path). -/
def deleteModel (fs : FileSys) (cwd userDir : List String) (p : PyPath) :
    Bool × FileSys :=
  if !((modelsDirAbs userDir).isPrefixOf (resolvePath cwd p)
        && resolvePath cwd p != modelsDirAbs userDir)
      && resolvePath cwd p != modelsDirAbs userDir then
    (false, fs)
  else if !(endsWithGguf (resolvePath cwd p)) then
    (false, fs)
  else if !(fs.contains (resolvePath cwd p)) then
    (false, fs)
  else
    (true, fs.filter (fun q => q != resolvePath cwd p))

end Contour

namespace Contour

theorem normAbsComps_append_models (xs : List String) :
    normAbsComps (xs ++ ["models"]) = normAbsComps xs ++ ["models"] := by
  simp [normAbsComps, List.foldl_append]

theorem endsWithGguf_modelsDirAbs (userDir : List String) :
    endsWithGguf (modelsDirAbs userDir) = false := by
  have h : (modelsDirAbs userDir).getLast? = some "models" := by
    rw [modelsDirAbs, normAbsComps_append_models]
    simp
  rw [endsWithGguf, h]
  decide

theorem deleteModel_eq (fs : FileSys) (cwd userDir : List String) (p : PyPath) :
    deleteModel fs cwd userDir p =
      if ((modelsDirAbs userDir).isPrefixOf (resolvePath cwd p) = true
            ∨ resolvePath cwd p = modelsDirAbs userDir)
          ∧ endsWithGguf (resolvePath cwd p) = true
          ∧ fs.contains (resolvePath cwd p) = true
      then (true, fs.filter (fun q => q != resolvePath cwd p))
      else (false, fs) := by
  by_cases h1 : (modelsDirAbs userDir).isPrefixOf (resolvePath cwd p) = true <;>
    by_cases h2 : resolvePath cwd p = modelsDirAbs userDir <;>
      by_cases h3 : endsWithGguf (resolvePath cwd p) = true <;>
        by_cases h4 : fs.contains (resolvePath cwd p) = true <;>
          simp_all [deleteModel]

theorem deleteModel_ret_iff (fs : FileSys) (cwd userDir : List String) (p : PyPath) :
    (deleteModel fs cwd userDir p).1 = true ↔
      (resolvePath cwd p ≠ modelsDirAbs userDir
        ∧ (modelsDirAbs userDir).isPrefixOf (resolvePath cwd p) = true)
      ∧ endsWithGguf (resolvePath cwd p) = true
      ∧ fs.contains (resolvePath cwd p) = true := by
  rw [deleteModel_eq]
  split
  case isTrue hc =>
    obtain ⟨hor, hg, hm⟩ := hc
    have hne : resolvePath cwd p ≠ modelsDirAbs userDir := by
      intro he
      rw [he, endsWithGguf_modelsDirAbs] at hg
      exact Bool.false_ne_true hg
    have hpre : (modelsDirAbs userDir).isPrefixOf (resolvePath cwd p) = true :=
      hor.resolve_right hne
    have hm' : resolvePath cwd p ∈ fs := by simpa using hm
    simp [hne, hpre, hg, hm']
  case isFalse hc =>
    simp only [show (false = true) = False by simp, false_iff]
    rintro ⟨⟨hne, hpre⟩, hg, hm⟩
    exact hc ⟨Or.inl hpre, hg, hm⟩

theorem deleteModel_effect (fs : FileSys) (cwd userDir : List String) (p : PyPath) :
    ((deleteModel fs cwd userDir p).1 = false → (deleteModel fs cwd userDir p).2 = fs)
    ∧ ((deleteModel fs cwd userDir p).1 = true →
        (deleteModel fs cwd userDir p).2 = fs.filter (fun q => q != resolvePath cwd p)) := by
  rw [deleteModel_eq]
  split
  · exact ⟨fun h => absurd h (by simp), fun _ => rfl⟩
  · exact ⟨fun _ => rfl, fun h => absurd h (by simp)⟩

/-! ## Downloader (`download_file`, `_hf_url`, `download_model`)

The filesystem seen by the downloader maps a destination path (plain string)
to the byte content of the file there, `none` when no file exists.  The
network is a function from URL to the HTTP response: the optional
`Content-Length` header value and the successive non-empty chunks returned by
`resp.read(1024*1024)` (an empty chunk means end of stream, which is how the
read loop terminates).  Progress percentages are modelled with exact rational
arithmetic in place of CPython floats. -/

/-- File content: a list of bytes. -/
abbrev Bytes := List Nat

/-- An HTTP response: `Content-Length` header (if present) and body chunks as
returned by successive `resp.read(chunk_size)` calls. -/
structure NetResponse where
  contentLength : Option Nat
  chunks : List Bytes

/-- The downloader's filesystem: destination path to file content. -/
abbrev DlFS := String → Option Bytes

/-- Result of one `download_file` call: the returned boolean, the filesystem
after the call, the sequence of `progress_callback(percent, size_mb, total_mb)`
invocations, and the number of network transfers (`urlopen` calls) made. -/
structure DlResult where
  ok : Bool
  fs : DlFS
  calls : List (ℚ × ℚ × ℚ)
  transfers : Nat

/-- The body of `download_file`'s `while True` read loop: accumulates bytes
and, after each non-empty chunk, when a callback was supplied and the server
reported a positive total, records
`(min(100.0, 100*size/total), size/2^20, total/2^20)`.
Stops at the first empty chunk (`if not chunk: break`). -/
def readLoop (total : Option Nat) (hasCb : Bool) :
    Nat → List Bytes → Bytes × List (ℚ × ℚ × ℚ)
  | _, [] => ([], [])
  | size, c :: rest =>
    if c = [] then ([], [])
    else
      let sz := size + c.length
      let r := readLoop total hasCb sz rest
      let call :=
        match total with
        | some t =>
          if hasCb ∧ 0 < t then
            [(min 100 ((100 * (sz : ℚ)) / (t : ℚ)), (sz : ℚ) / 1048576, (t : ℚ) / 1048576)]
          else []
        | none => []
      (c ++ r.1, call ++ r.2)

/-- Embedding of `llama_download.download_file(url, dest_path, force, progress_callback)`.
`hasCb` records whether a `progress_callback` was supplied. -/
def downloadFile (fs : DlFS) (net : String → NetResponse) (url destPath : String)
    (force : Bool) (hasCb : Bool) : DlResult :=
  if (fs destPath).isSome && !force then
    { ok := false, fs := fs, calls := [], transfers := 0 }
  else
    let r := readLoop (net url).contentLength hasCb 0 (net url).chunks
    { ok := true
      fs := fun q => if q = destPath then some r.1 else fs q
      calls := r.2
      transfers := 1 }

/-- Embedding of `scripts/download_llama_model.download_file(url, dest_path, force)`: same
skip/force logic, progress printed instead of a callback.  Returns the boolean
result, the filesystem afterwards, and the number of transfers. -/
def downloadFileScript (fs : DlFS) (net : String → NetResponse) (url destPath : String)
    (force : Bool) : Bool × DlFS × Nat :=
  if (fs destPath).isSome && !force then (false, fs, 0)
  else
    let r := readLoop (net url).contentLength false 0 (net url).chunks
    (true, fun q => if q = destPath then some r.1 else fs q, 1)

/-- Python `repo.strip("/")`. -/
def stripSlashes (s : String) : String :=
  String.mk (((s.toList.dropWhile (· = '/')).reverse.dropWhile (· = '/')).reverse)

/-- Python `s.split("/", 1)` when `"/" in s`: the part before the first `/`
and the rest; `none` when `s` contains no `/`. -/
def splitFirstSlash (s : String) : Option (String × String) :=
  match s.toList.findIdx? (· = '/') with
  | none => none
  | some i => some (String.mk (s.toList.take i), String.mk (s.toList.drop (i + 1)))

/-- Embedding of `llama_download._hf_url(repo, filename, revision)` (identical to
`scripts/download_llama_model.hf_url`). -/
def hfUrl (repo filename revision : String) : String :=
  match splitFirstSlash (stripSlashes (strTrim repo)) with
  | some (org, name) =>
    "https://huggingface.co/" ++ org ++ "/" ++ name ++ "/resolve/" ++ revision ++ "/" ++ filename
  | none =>
    "https://huggingface.co/" ++ stripSlashes (strTrim repo) ++ "/"
      ++ stripSlashes (strTrim repo) ++ "/resolve/" ++ revision ++ "/" ++ filename

/-- The destination filename chosen by `download_model`:
`output_filename or hf_file`, with `".gguf"` appended when the
case-insensitive extension is missing. -/
def ggufFilename (outputFilename : Option String) (hfFile : String) : String :=
  let f := pyOr (outputFilename.getD "") hfFile
  if !(strEndsWith (strToLower f) ".gguf") then f ++ ".gguf" else f

/-- Embedding of `llama_download.download_model(hf_repo, hf_file, force, progress_callback,
output_filename)` with `modelsDir` the result of `get_models_dir()`.  Returns
the returned path (always `Some dest_path`), the filesystem afterwards, and
the number of network transfers. -/
def downloadModel (fs : DlFS) (net : String → NetResponse) (modelsDir : String)
    (hfRepo hfFile : String) (force : Bool) (hasCb : Bool)
    (outputFilename : Option String) : Option String × DlFS × Nat :=
  if (fs (modelsDir ++ "/" ++ ggufFilename outputFilename hfFile)).isSome && !force then
    (some (modelsDir ++ "/" ++ ggufFilename outputFilename hfFile), fs, 0)
  else
    let r := downloadFile fs net (hfUrl hfRepo hfFile "main")
      (modelsDir ++ "/" ++ ggufFilename outputFilename hfFile) force hasCb
    (some (modelsDir ++ "/" ++ ggufFilename outputFilename hfFile), r.fs, r.transfers)

/-- C1. `delete_model(P)` returns `True` precisely when the normalized
absolute form of `P` is strictly inside the managed models directory
(component-wise proper prefix, i.e. `startswith(models_dir + os.sep)`), ends
with `.gguf` case-insensitively, and is an existing regular file; in that case
it removes exactly the file at `P`; in every other case it returns `False`
and leaves the filesystem unchanged.  The embedding is a total function, so
no exception is raised on any input. -/
theorem c1_delete_model (fs : FileSys) (cwd userDir : List String) (p : PyPath) :
    ((deleteModel fs cwd userDir p).1 = true ↔
      (resolvePath cwd p ≠ modelsDirAbs userDir
        ∧ (modelsDirAbs userDir).isPrefixOf (resolvePath cwd p) = true)
      ∧ endsWithGguf (resolvePath cwd p) = true
      ∧ fs.contains (resolvePath cwd p) = true)
    ∧ ((deleteModel fs cwd userDir p).1 = false → (deleteModel fs cwd userDir p).2 = fs)
    ∧ ((deleteModel fs cwd userDir p).1 = true →
        (deleteModel fs cwd userDir p).2 = fs.filter (fun q => q != resolvePath cwd p)) :=
  ⟨deleteModel_ret_iff fs cwd userDir p,
   (deleteModel_effect fs cwd userDir p).1,
   (deleteModel_effect fs cwd userDir p).2⟩

/-- C1 witness. A traversal path `../u/models/a.gguf` that resolves back
inside the models dir is deleted; the models dir path itself and an
outside-the-dir path are refused with the filesystem unchanged. -/
theorem c1_delete_model_witness :
    (deleteModel [["home", "u", "models", "a.gguf"]] ["home", "u"] ["home", "u"]
        ⟨false, ["..", "u", "models", "a.gguf"]⟩).1 = true
    ∧ (deleteModel [["etc", "passwd.gguf"]] ["home", "u"] ["home", "u"]
        ⟨true, ["etc", "passwd.gguf"]⟩).2 = [["etc", "passwd.gguf"]] := by
  constructor
  · exact (c1_delete_model [["home", "u", "models", "a.gguf"]] ["home", "u"] ["home", "u"]
      ⟨false, ["..", "u", "models", "a.gguf"]⟩).1.mpr (by decide)
  · exact ((c1_delete_model [["etc", "passwd.gguf"]] ["home", "u"] ["home", "u"]
      ⟨true, ["etc", "passwd.gguf"]⟩).2.1) (by decide)

/-- C3. `download_file` is an idempotent no-op on an existing destination:
if the destination exists and `force` is false it returns `False` immediately
with no transfer, no write and no progress call; after a successful download
the second call with `force = false` is exactly such a no-op; and with
`force = true` the transfer is always performed.  The same skip/force contract
holds for the CLI script's `download_file`. -/
theorem c3_download_file_idempotent (fs : DlFS) (net : String → NetResponse)
    (url destPath : String) (hasCb : Bool) :
    ((fs destPath).isSome = true →
        downloadFile fs net url destPath false hasCb = ⟨false, fs, [], 0⟩
        ∧ downloadFileScript fs net url destPath false = (false, fs, 0))
    ∧ (downloadFile fs net url destPath true hasCb).transfers = 1
    ∧ (downloadFileScript fs net url destPath true).2.2 = 1
    ∧ ((fs destPath).isSome = false →
        (downloadFile fs net url destPath false hasCb).ok = true
        ∧ (downloadFile fs net url destPath false hasCb).transfers = 1
        ∧ (((downloadFile fs net url destPath false hasCb).fs) destPath).isSome = true
        ∧ downloadFile ((downloadFile fs net url destPath false hasCb).fs) net url destPath
            false hasCb
          = ⟨false, (downloadFile fs net url destPath false hasCb).fs, [], 0⟩) := by
  refine ⟨fun h => ⟨?_, ?_⟩, ?_, ?_, fun h => ?_⟩
  · simp [downloadFile, h]
  · simp [downloadFileScript, h]
  · simp [downloadFile]
  · simp [downloadFileScript]
  · have h1 : (downloadFile fs net url destPath false hasCb).fs destPath
        = some (readLoop (net url).contentLength hasCb 0 (net url).chunks).1 := by
      simp [downloadFile, h]
    refine ⟨by simp [downloadFile, h], by simp [downloadFile, h], by simp [h1], ?_⟩
    simp [downloadFile, h1]
    simp [downloadFile, h]

/-- C3 witness. Concrete run: with the destination absent the first call
downloads and returns `True`; the second call returns `False` and transfers
nothing; `force = true` transfers even when the file exists. -/
theorem c3_download_file_idempotent_witness :
    ((fun _ => none : DlFS) "d").isSome = false
    ∧ (downloadFile (fun _ => none) (fun _ => ⟨some 2, [[7], [7]]⟩) "u" "d" false true).ok = true
    ∧ downloadFile (downloadFile (fun _ => none) (fun _ => ⟨some 2, [[7], [7]]⟩)
          "u" "d" false true).fs (fun _ => ⟨some 2, [[7], [7]]⟩) "u" "d" false true
        = ⟨false, (downloadFile (fun _ => none) (fun _ => ⟨some 2, [[7], [7]]⟩)
            "u" "d" false true).fs, [], 0⟩
    ∧ (downloadFile (fun _ => none) (fun _ => ⟨some 2, [[7], [7]]⟩) "u" "d" true true).transfers
        = 1 := by
  have h := c3_download_file_idempotent (fun _ => none) (fun _ => ⟨some 2, [[7], [7]]⟩) "u" "d" true
  exact ⟨rfl, (h.2.2.2 rfl).1, (h.2.2.2 rfl).2.2.2, h.2.1⟩

/-- The running byte totals seen after each chunk of the read loop. -/
def cumSizes (size : Nat) : List Bytes → List Nat
  | [] => []
  | c :: rest => (size + c.length) :: cumSizes (size + c.length) rest

/-- The triple passed to `progress_callback` when `size` bytes of `T` have
been received. -/
def pctTriple (T s : Nat) : ℚ × ℚ × ℚ :=
  (min 100 ((100 * (s : ℚ)) / (T : ℚ)), (s : ℚ) / 1048576, (T : ℚ) / 1048576)

theorem readLoop_calls_eq (T : Nat) (hT : 0 < T) (chunks : List Bytes) :
    ∀ size : Nat, (∀ c ∈ chunks, c ≠ []) →
      (readLoop (some T) true size chunks).2 = (cumSizes size chunks).map (pctTriple T) := by
  induction chunks with
  | nil => intro size _; rfl
  | cons c rest ih =>
    intro size h
    have hc : c ≠ [] := h c (by simp)
    have hrest := ih (size + c.length) (fun d hd => h d (by simp [hd]))
    simp [readLoop, cumSizes, hc, hT, hrest, pctTriple]

theorem readLoop_no_calls (chunks : List Bytes) :
    ∀ size : Nat, (readLoop none true size chunks).2 = []
      ∧ (readLoop (some 0) true size chunks).2 = [] := by
  induction chunks with
  | nil => intro _; exact ⟨rfl, rfl⟩
  | cons c rest ih =>
    intro size
    by_cases hc : c = [] <;> simp [readLoop, hc, ih (size + c.length)]

theorem cumSizes_lt (chunks : List Bytes) :
    ∀ size : Nat, (∀ c ∈ chunks, c ≠ []) → ∀ x ∈ cumSizes size chunks, size < x := by
  induction chunks with
  | nil => simp [cumSizes]
  | cons c rest ih =>
    intro size h x hx
    have hlen : 0 < c.length := List.length_pos.mpr (h c (by simp))
    rcases List.mem_cons.mp hx with rfl | hx
    · omega
    · have := ih (size + c.length) (fun d hd => h d (by simp [hd])) x hx
      omega

theorem cumSizes_le (chunks : List Bytes) :
    ∀ size : Nat, ∀ x ∈ cumSizes size chunks, x ≤ size + (chunks.map List.length).sum := by
  induction chunks with
  | nil => simp [cumSizes]
  | cons c rest ih =>
    intro size x hx
    simp only [List.map_cons, List.sum_cons]
    rcases List.mem_cons.mp hx with rfl | hx
    · omega
    · have := ih (size + c.length) x hx
      omega

theorem cumSizes_pairwise (chunks : List Bytes) :
    ∀ size : Nat, (∀ c ∈ chunks, c ≠ []) → (cumSizes size chunks).Pairwise (· < ·) := by
  induction chunks with
  | nil => intro _ _; exact List.Pairwise.nil
  | cons c rest ih =>
    intro size h
    refine List.Pairwise.cons ?_ (ih (size + c.length) (fun d hd => h d (by simp [hd])))
    exact fun x hx => cumSizes_lt rest (size + c.length) (fun d hd => h d (by simp [hd])) x hx

theorem cumSizes_length (chunks : List Bytes) :
    ∀ size : Nat, (cumSizes size chunks).length = chunks.length := by
  induction chunks with
  | nil => intro _; rfl
  | cons c rest ih => intro size; simp [cumSizes, ih]

theorem cumSizes_getLast? (chunks : List Bytes) :
    ∀ size : Nat, chunks ≠ [] →
      (cumSizes size chunks).getLast? = some (size + (chunks.map List.length).sum) := by
  induction chunks with
  | nil => simp
  | cons c rest ih =>
    intro size _
    cases rest with
    | nil => simp [cumSizes]
    | cons d rest' =>
      have htail := ih (size + c.length) (by simp)
      show ((size + c.length) :: cumSizes (size + c.length) (d :: rest')).getLast? = _
      rw [show cumSizes (size + c.length) (d :: rest')
            = (size + c.length + d.length) :: cumSizes (size + c.length + d.length) rest'
          from rfl]
      rw [List.getLast?_cons_cons]
      rw [show (size + c.length + d.length) :: cumSizes (size + c.length + d.length) rest'
            = cumSizes (size + c.length) (d :: rest') from rfl]
      rw [htail]
      simp only [List.map_cons, List.sum_cons]
      congr 1
      omega

theorem pct_min_eq (T s : Nat) (hT : 0 < T) (hs : s ≤ T) :
    (pctTriple T s).1 = (100 * (s : ℚ)) / (T : ℚ) := by
  have hTq : (0 : ℚ) < (T : ℚ) := by exact_mod_cast hT
  apply min_eq_right
  rw [div_le_iff₀ hTq]
  have hsq : (s : ℚ) ≤ (T : ℚ) := by exact_mod_cast hs
  nlinarith

theorem pct_lt_pct (T a b : Nat) (hT : 0 < T) (hab : a < b) (hb : b ≤ T) :
    (pctTriple T a).1 < (pctTriple T b).1 := by
  have hTq : (0 : ℚ) < (T : ℚ) := by exact_mod_cast hT
  rw [pct_min_eq T a hT (le_of_lt (lt_of_lt_of_le hab hb)), pct_min_eq T b hT hb]
  rw [div_lt_div_iff₀ hTq hTq]
  have habq : (a : ℚ) < (b : ℚ) := by exact_mod_cast hab
  nlinarith

theorem pct_bounds (T s : Nat) : 0 ≤ (pctTriple T s).1 ∧ (pctTriple T s).1 ≤ 100 := by
  refine ⟨le_min (by norm_num) (div_nonneg (by positivity) (by positivity)), min_le_left _ _⟩

theorem pct_at_total (T : Nat) (hT : 0 < T) : (pctTriple T T).1 = 100 := by
  have hTq : (0 : ℚ) < (T : ℚ) := by exact_mod_cast hT
  rw [pct_min_eq T T hT le_rfl, mul_div_assoc, div_self (ne_of_gt hTq), mul_one]

/-- C7. During `download_file` with a callback supplied: when the
response carries a positive `Content-Length` `T` (the HTTP layer guarantees
at most `T` body bytes), the callback is invoked once per chunk with a
percentage in `[0, 100]`, the percentages are strictly increasing across
invocations, and when the total number of received bytes equals `T` the last
reported percentage is exactly `100`; when `Content-Length` is absent or
zero the callback is never invoked. -/
theorem c7_progress (fs : DlFS) (url destPath : String) (chunks : List Bytes) (T : Nat)
    (hfs : fs destPath = none)
    (hne : ∀ c ∈ chunks, c ≠ [])
    (hT : 0 < T)
    (hsum : (chunks.map List.length).sum ≤ T) :
    (downloadFile fs (fun _ => ⟨some T, chunks⟩) url destPath false true).calls.length
        = chunks.length
    ∧ ((downloadFile fs (fun _ => ⟨some T, chunks⟩) url destPath false true).calls.map
        (fun c => c.1)).Pairwise (· < ·)
    ∧ (∀ q ∈ (downloadFile fs (fun _ => ⟨some T, chunks⟩) url destPath false true).calls,
        0 ≤ q.1 ∧ q.1 ≤ 100)
    ∧ ((chunks.map List.length).sum = T → chunks ≠ [] →
        ((downloadFile fs (fun _ => ⟨some T, chunks⟩) url destPath false true).calls.map
            (fun c => c.1)).getLast? = some 100)
    ∧ (downloadFile fs (fun _ => ⟨none, chunks⟩) url destPath false true).calls = []
    ∧ (downloadFile fs (fun _ => ⟨some 0, chunks⟩) url destPath false true).calls = [] := by
  have hcalls : (downloadFile fs (fun _ => ⟨some T, chunks⟩) url destPath false true).calls
      = (cumSizes 0 chunks).map (pctTriple T) := by
    simp only [downloadFile, hfs, Option.isSome_none, Bool.false_and, Bool.false_eq_true,
      if_false, Bool.not_false, Bool.and_true]
    exact readLoop_calls_eq T hT chunks 0 hne
  refine ⟨?_, ?_, ?_, ?_, ?_, ?_⟩
  · rw [hcalls]
    simp [cumSizes_length]
  · rw [hcalls, List.map_map]
    apply List.pairwise_map.mpr
    apply (cumSizes_pairwise chunks 0 hne).imp_of_mem
    intro a b ha hb hab
    have hbT : b ≤ T := le_trans (cumSizes_le chunks 0 b hb) (by omega)
    exact pct_lt_pct T a b hT hab hbT
  · intro q hq
    rw [hcalls] at hq
    obtain ⟨s, _, rfl⟩ := List.mem_map.mp hq
    exact pct_bounds T s
  · intro hEq hnil
    rw [hcalls, List.map_map, List.getLast?_map, cumSizes_getLast? chunks 0 hnil]
    have h0 : 0 + (chunks.map List.length).sum = T := by omega
    rw [h0]
    simp [Function.comp, pct_at_total T hT]
  · simp only [downloadFile, hfs, Option.isSome_none, Bool.false_and, Bool.false_eq_true,
      if_false, Bool.not_false, Bool.and_true]
    exact (readLoop_no_calls chunks 0).1
  · simp only [downloadFile, hfs, Option.isSome_none, Bool.false_and, Bool.false_eq_true,
      if_false, Bool.not_false, Bool.and_true]
    exact (readLoop_no_calls chunks 0).2

/-- C7 witness. A concrete 3-byte download in two chunks with
`Content-Length: 3`: two callback invocations, the last percentage exactly
`100`. -/
theorem c7_progress_witness :
    (downloadFile (fun _ => none) (fun _ => ⟨some 3, [[1], [2, 3]]⟩) "u" "d" false true).calls.length
        = 2
    ∧ ((downloadFile (fun _ => none) (fun _ => ⟨some 3, [[1], [2, 3]]⟩) "u" "d" false
          true).calls.map (fun c => c.1)).getLast? = some 100 := by
  have h := c7_progress (fun _ => none) "u" "d" [[1], [2, 3]] 3 rfl
    (by decide) (by decide) (by decide)
  exact ⟨h.1, h.2.2.2.1 (by decide) (by decide)⟩

/-- C10. When the resolved destination already exists and `force` is
false, `download_model` makes no network transfer, leaves the filesystem
unchanged, and returns the existing destination path (`Some`); moreover for
every `force` value the returned path is the same `Some dest_path`, so the
result does not distinguish a fresh download from a skipped one. -/
theorem c10_download_model_skip (fs : DlFS) (net : String → NetResponse)
    (modelsDir hfRepo hfFile : String) (hasCb : Bool) (outputFilename : Option String)
    (h : (fs (modelsDir ++ "/" ++ ggufFilename outputFilename hfFile)).isSome = true) :
    downloadModel fs net modelsDir hfRepo hfFile false hasCb outputFilename
      = (some (modelsDir ++ "/" ++ ggufFilename outputFilename hfFile), fs, 0)
    ∧ ∀ force : Bool,
        (downloadModel fs net modelsDir hfRepo hfFile force hasCb outputFilename).1
          = some (modelsDir ++ "/" ++ ggufFilename outputFilename hfFile) := by
  refine ⟨by simp [downloadModel, h], fun force => ?_⟩
  cases force <;> simp [downloadModel, h]

/-- C10 witness. With `m/a.gguf` already on disk, `download_model`
returns `Some "m/a.gguf"` with zero transfers. -/
theorem c10_download_model_skip_witness :
    downloadModel (fun p => if p = "m/a.gguf" then some [] else none)
        (fun _ => ⟨none, []⟩) "m" "r" "a.gguf" false false none
      = (some ("m" ++ "/" ++ ggufFilename none "a.gguf"),
          (fun p => if p = "m/a.gguf" then some [] else none), 0) :=
  (c10_download_model_skip (fun p => if p = "m/a.gguf" then some [] else none)
    (fun _ => ⟨none, []⟩) "m" "r" "a.gguf" false none (by decide)).1

/-! ## Context-window normalization (`_preload_llama_model`, lines 158-166)

The configured value can be an int, a string (the option is edited through a
text entry) or `None`; `int(...)` raises `TypeError`/`ValueError` on `None`
and non-numeric strings, which the code turns into the default 4096, and the
result is clamped into `[512, 65536]`. -/

/-- A Python configuration value as returned by `get_option`. -/
inductive PyVal where
  | vint (n : Int)
  | vstr (s : String)
  | vnone
deriving DecidableEq, Repr

/-- Value of a decimal digit string. -/
def digitsToNat (cs : List Char) : Nat :=
  cs.foldl (fun a c => 10 * a + (c.toNat - 48)) 0

/-- Python `int(s)` on a string: optional surrounding whitespace, optional
sign, then decimal digits; anything else raises `ValueError` (`none`).
(Underscore digit separators, accepted by CPython, are not modelled; no
claim depends on them.) -/
def pyParseInt (s : String) : Option Int :=
  match (strTrim s).toList with
  | [] => none
  | c :: rest =>
    let ds := if c = '-' ∨ c = '+' then rest else c :: rest
    let sign : Int := if c = '-' then -1 else 1
    if ds ≠ [] ∧ ds.all Char.isDigit then some (sign * (digitsToNat ds : Int)) else none

/-- Python `int(v)`: identity on ints, string parsing on strings,
`TypeError` (`none`) on `None`. -/
def pyToInt : PyVal → Option Int
  | .vint n => some n
  | .vstr s => pyParseInt s
  | .vnone => none

/-- The `n_ctx` normalization in `_preload_llama_model`: `int(...)` then
clamp to `[512, 65536]`; on `TypeError`/`ValueError`, 4096. -/
def normalizeNCtx (v : PyVal) : Int :=
  match pyToInt v with
  | none => 4096
  | some n => if n < 512 then 512 else if n > 65536 then 65536 else n

/-- C5. The effective context window always lies in `[512, 65536]`:
non-numeric input yields 4096, input below 512 yields 512, input above 65536
yields 65536, and in-range numeric input (int or numeric string) passes
through unchanged. -/
theorem c5_n_ctx_normalized (v : PyVal) (n : Int) (s : String)
    (hlo : 512 ≤ n) (hhi : n ≤ 65536) :
    (512 ≤ normalizeNCtx v ∧ normalizeNCtx v ≤ 65536)
    ∧ normalizeNCtx (.vstr "abc") = 4096
    ∧ normalizeNCtx .vnone = 4096
    ∧ normalizeNCtx (.vint 0) = 512
    ∧ normalizeNCtx (.vint (-5)) = 512
    ∧ normalizeNCtx (.vint 999999) = 65536
    ∧ normalizeNCtx (.vint n) = n
    ∧ (pyParseInt s = some n → normalizeNCtx (.vstr s) = n) := by
  refine ⟨?_, by decide, by decide, by decide, by decide, by decide, ?_, fun hs => ?_⟩
  · rcases h : pyToInt v with _ | m <;> simp only [normalizeNCtx, h]
    · omega
    · split_ifs <;> omega
  · simp only [normalizeNCtx, pyToInt]
    split_ifs <;> omega
  · simp only [normalizeNCtx, pyToInt, hs]
    split_ifs <;> omega

/-- C5 witness. Concrete checks at `"2048"` (numeric string in range) and
`"abc"`. -/
theorem c5_n_ctx_normalized_witness :
    (512 ≤ normalizeNCtx (.vstr "2048") ∧ normalizeNCtx (.vstr "2048") ≤ 65536)
    ∧ normalizeNCtx (.vstr "2048") = 2048
    ∧ normalizeNCtx (.vstr "abc") = 4096 := by
  have h := c5_n_ctx_normalized (.vstr "2048") 2048 "2048" (by decide) (by decide)
  exact ⟨h.1, h.2.2.2.2.2.2.2 (by decide), h.2.1⟩

/-! ## Background model loading (`_start_llama_preload`, `_preload_llama_model`)

`_start_llama_preload` spawns a daemon thread running `_preload_llama_model`
unconditionally: the function body contains no check for an already-running
load.  Each run of `_preload_llama_model`, once past the path check, ends with
exactly one terminal write (success: handle published, error cleared;
failure: handle cleared, error published), taken under the `_llama_loading`
lock, so writes are serialized.  We model the loader as a state machine over
events: `start` (one `_start_llama_preload` call, i.e. one spawned thread)
and `finishOk`/`finishErr` (one running thread performing its terminal
locked write). -/

/-- Observable loader state: number of in-flight load threads, number of
`_start_llama_preload` invocations, number of terminal locked writes
performed, and the shared `_llama_instance` / `_llama_load_error` cells. -/
structure LoaderState where
  inFlight : Nat
  started : Nat
  terminalWrites : Nat
  llamaInstance : Option Nat
  llamaLoadError : Option String
deriving DecidableEq, Repr

/-- Startup state: nothing loaded, nothing running. -/
def initLoader : LoaderState := ⟨0, 0, 0, none, none⟩

/-- Loader events: a `_start_llama_preload` call, or the terminal write of
one running `_preload_llama_model` thread (with the handle it loaded or the
stringified exception). -/
inductive LoaderEvent where
  | start
  | finishOk (handle : Nat)
  | finishErr (msg : String)
deriving DecidableEq, Repr

/-- One loader transition.  `start` unconditionally spawns a new thread
(mirroring `_start_llama_preload`, which has no duplicate-load guard); a
finish event from a running thread performs that thread's single terminal
locked write. -/
def loaderStep (s : LoaderState) : LoaderEvent → LoaderState
  | .start => { s with inFlight := s.inFlight + 1, started := s.started + 1 }
  | .finishOk h =>
    if s.inFlight = 0 then s
    else { s with inFlight := s.inFlight - 1, terminalWrites := s.terminalWrites + 1,
                  llamaInstance := some h, llamaLoadError := none }
  | .finishErr e =>
    if s.inFlight = 0 then s
    else { s with inFlight := s.inFlight - 1, terminalWrites := s.terminalWrites + 1,
                  llamaInstance := none, llamaLoadError := some e }

/-- A sequence of loader events applied from a state. -/
def runLoader (s : LoaderState) (es : List LoaderEvent) : LoaderState :=
  es.foldl loaderStep s

/-- C2 counterexample. Two `_start_llama_preload` invocations in quick
succession (before either load completes) leave two loads in flight, not
one, and after both complete two terminal state transitions have been
observed, not one: the start operation contains no duplicate-load guard. -/
theorem c2_counterexample :
    ¬ ((runLoader initLoader [.start, .start]).inFlight = 1
        ∧ (runLoader initLoader
            [.start, .start, .finishOk 1, .finishOk 2]).terminalWrites = 1) := by
  decide

/-- C2 (amended). Two start requests issued before the first load
completes start two concurrent load attempts — one per invocation — and each
completed attempt performs its own terminal locked state transition (so two
completions give two terminal writes); the lock serializes the writes, the
final published handle being the last completer's, with no load left in
flight. -/
theorem c2_two_starts_two_loads (a b : Nat) :
    (runLoader initLoader [.start, .start]).inFlight = 2
    ∧ (runLoader initLoader [.start, .start, .finishOk a, .finishOk b]).terminalWrites = 2
    ∧ (runLoader initLoader [.start, .start, .finishOk a, .finishOk b]).llamaInstance = some b
    ∧ (runLoader initLoader [.start, .start, .finishOk a, .finishOk b]).inFlight = 0 := by
  refine ⟨by decide, ?_, ?_, ?_⟩ <;> simp [runLoader, loaderStep, initLoader]

/-! ## Chat message list (`_messages_to_llama_chat`)

`assistant.format_message` is part of the host IDE's `Assistant` base class
(external to this repository), so it is passed in as an opaque function
`fmt`; `msg.content or ""` collapses a `None` content to the empty string,
so contents are modelled as plain strings.  `context.git_info` may be absent
(`getattr(..., None)`) or an empty string, both falsy: it is modelled as
`Option String` with `(gitInfo.getD "") ≠ ""` as the truthiness test. -/

/-- A role-tagged chat message (both Thonny's `ChatMessage` and the dicts
built for llama-cpp-python). -/
structure ChatMessage where
  role : String
  content : String
deriving DecidableEq, Repr

/-- The role written into the llama message dict:
`msg.role if msg.role in ("user", "assistant", "system") else "user"`. -/
def coerceRole (r : String) : String :=
  if r = "user" ∨ r = "assistant" ∨ r = "system" then r else "user"

/-- One iteration of the message loop: format user messages through the
assistant, pass other contents through, and coerce the role. -/
def convMsg (fmt : ChatMessage → String) (m : ChatMessage) : ChatMessage :=
  { role := coerceRole m.role
    content := if m.role = "user" then fmt m else m.content }

/-- The f-string
`f"Current git context:\n{context.git_info}\n\n---\n\n{messages[-1]['content']}"`. -/
def gitContextWrap (g content : String) : String :=
  "Current git context:\n" ++ g ++ "\n\n---\n\n" ++ content

/-- The final `git_info` step of `_messages_to_llama_chat`: when `git_info`
is truthy, the built list is non-empty and its last entry's role is
`"user"`, rewrite the last entry's content in place. -/
def applyGitInfo (gitInfo : Option String) (base : List ChatMessage) : List ChatMessage :=
  match base.getLast? with
  | some last =>
    if (gitInfo.getD "") ≠ "" ∧ last.role = "user" then
      base.dropLast ++ [{ last with content := gitContextWrap (gitInfo.getD "") last.content }]
    else base
  | none => base

/-- Embedding of `_messages_to_llama_chat(context, assistant)`: optional system message
from the (already combined) instructions text, one converted entry per
conversation message in order, then the `git_info` rewrite of the last
entry. -/
def messagesToLlamaChat (instructions : String) (fmt : ChatMessage → String)
    (msgs : List ChatMessage) (gitInfo : Option String) : List ChatMessage :=
  applyGitInfo gitInfo
    ((if instructions ≠ "" then [ChatMessage.mk "system" instructions] else [])
      ++ msgs.map (convMsg fmt))

end Contour

namespace Contour

theorem applyGitInfo_concat (gitInfo : Option String) (front : List ChatMessage)
    (b : ChatMessage) :
    applyGitInfo gitInfo (front ++ [b])
      = if (gitInfo.getD "") ≠ "" ∧ b.role = "user" then
          front ++ [{ b with content := gitContextWrap (gitInfo.getD "") b.content }]
        else front ++ [b] := by
  rw [applyGitInfo, List.getLast?_concat]
  simp only [List.dropLast_concat]

theorem applyGitInfo_map_role (gitInfo : Option String) (base : List ChatMessage) :
    (applyGitInfo gitInfo base).map (fun m => m.role) = base.map (fun m => m.role) := by
  rcases List.eq_nil_or_concat base with rfl | ⟨front, b, rfl⟩
  · rfl
  · simp only [List.concat_eq_append, applyGitInfo_concat]
    split
    · simp
    · rfl

theorem applyGitInfo_of_neg (gitInfo : Option String) (base : List ChatMessage)
    (h : gitInfo.getD "" = "" ∨ (base.getLast?.map (fun m => m.role)).getD "" ≠ "user") :
    applyGitInfo gitInfo base = base := by
  rcases List.eq_nil_or_concat base with rfl | ⟨front, b, rfl⟩
  · rfl
  · simp only [List.concat_eq_append] at h ⊢
    rw [applyGitInfo_concat]
    rw [List.getLast?_concat] at h
    refine if_neg ?_
    rintro ⟨hg, hrole⟩
    rcases h with h | h
    · exact hg h
    · exact h hrole

theorem applyGitInfo_of_pos (g : String) (base : List ChatMessage) (last : ChatMessage)
    (hg : g ≠ "") (hlast : base.getLast? = some last) (hrole : last.role = "user") :
    applyGitInfo (some g) base
      = base.dropLast ++ [{ last with content := gitContextWrap g last.content }] := by
  rw [applyGitInfo, hlast]
  exact if_pos ⟨hg, hrole⟩

/-- C4. On the local-model path the message list sent to the model has:
the system-instructions message first iff the instructions are non-empty,
then exactly one entry per conversation message in order with every
unrecognized role coerced to `"user"`; when `git_info` is truthy and the
last entry's role is `"user"`, that last entry's content is the git context
text followed by the original (formatted) user text — context first —
leaving the earlier entries unchanged; otherwise the list is exactly the
base list. -/
theorem c4_llama_message_list (instructions : String) (fmt : ChatMessage → String)
    (msgs : List ChatMessage) (gitInfo : Option String) :
    (messagesToLlamaChat instructions fmt msgs gitInfo).map (fun m => m.role)
      = (if instructions ≠ "" then ["system"] else [])
        ++ msgs.map (fun m => coerceRole m.role)
    ∧ ((gitInfo.getD "" = ""
          ∨ (msgs.getLast?.map (fun m => coerceRole m.role)).getD "" ≠ "user") →
        messagesToLlamaChat instructions fmt msgs gitInfo
          = (if instructions ≠ "" then [ChatMessage.mk "system" instructions] else [])
            ++ msgs.map (convMsg fmt))
    ∧ (∀ g last, gitInfo = some g → g ≠ "" → msgs.getLast? = some last →
        coerceRole last.role = "user" →
        messagesToLlamaChat instructions fmt msgs gitInfo
          = ((if instructions ≠ "" then [ChatMessage.mk "system" instructions] else [])
              ++ msgs.map (convMsg fmt)).dropLast
            ++ [ChatMessage.mk "user"
                (gitContextWrap g ((convMsg fmt last).content))]) := by
  refine ⟨?_, fun h => ?_, fun g last hgi hg hlast hrole => ?_⟩
  · rw [messagesToLlamaChat, applyGitInfo_map_role]
    simp only [List.map_append, List.map_map]
    split <;> simp [convMsg, Function.comp]
  · rw [messagesToLlamaChat]
    apply applyGitInfo_of_neg
    rcases h with h | h
    · exact Or.inl h
    · right
      rw [List.getLast?_append, List.getLast?_map]
      cases hm : msgs.getLast? with
      | none =>
        show (Option.map _ ((if instructions ≠ "" then
            [ChatMessage.mk "system" instructions] else []).getLast?)).getD "" ≠ "user"
        split <;> simp
      | some m =>
        rw [hm] at h
        exact h
  · rw [messagesToLlamaChat, hgi]
    have hbase : ((if instructions ≠ "" then [ChatMessage.mk "system" instructions] else [])
        ++ msgs.map (convMsg fmt)).getLast? = some (convMsg fmt last) := by
      rw [List.getLast?_append, List.getLast?_map, hlast]
      rfl
    have hr : (convMsg fmt last).role = "user" := by simpa [convMsg] using hrole
    rw [applyGitInfo_of_pos g _ (convMsg fmt last) hg hbase hr]
    rw [hr]

/-- C4 witness. The spec's end-to-end scenario 4: one user message
`"hi"` and git context `"Branch: main"` produce a system message followed by
one user message whose content is the git context text first, then the
original user text (`gitContextWrap` places the context before the user
content by construction). -/
theorem c4_llama_message_list_witness :
    messagesToLlamaChat "inst" (fun m => m.content) [ChatMessage.mk "user" "hi"]
        (some "Branch: main")
      = [ChatMessage.mk "system" "inst",
         ChatMessage.mk "user" (gitContextWrap "Branch: main" "hi")] := by
  have h := (c4_llama_message_list "inst" (fun m => m.content)
      [ChatMessage.mk "user" "hi"] (some "Branch: main")).2.2
      "Branch: main" (ChatMessage.mk "user" "hi") rfl (by decide) rfl (by decide)
  rw [h]
  rfl

/-! ## Chat completion (`PydanticAIAssistant.complete_chat`)

`complete_chat` is a generator.  Its observable behaviour for one request is
the finite list of yielded `ChatResponseChunk`s.  The two streaming loops
(llama-cpp and pydantic-ai) are driven by external iterators; each is
modelled as a list of events — a text delta (the extracted
`delta.get("content") or ""`, resp. the `stream_text()` increment) or an
exception raised at that point of the iteration.  The configuration reads
and the externally-owned state (`_llama_instance`, `_llama_load_error`,
`_get_agent()` success) are snapshot in a `ChatEnv`. -/

/-- Thonny's `ChatResponseChunk(content, is_final=..., is_interal_error=...)`
(the field name reproduces the source's spelling). -/
structure ChatResponseChunk where
  text : String
  is_final : Bool
  is_interal_error : Bool
deriving DecidableEq, Repr

/-- One step of an external streaming iterator: a delta carrying (possibly
empty) text, or an exception raised during iteration. -/
inductive StreamEvent where
  | delta (content : String)
  | raise (msg : String)
deriving DecidableEq, Repr

/-- The chunks yielded for the delta events of a stream: one non-final chunk
per delta with non-empty content. -/
def deltaChunks (events : List StreamEvent) : List ChatResponseChunk :=
  events.filterMap (fun ev =>
    match ev with
    | .delta c => if c ≠ "" then some (ChatResponseChunk.mk c false false) else none
    | .raise _ => none)

/-- The message of the chunk yielded by the llama-cpp `except` handler:
`f"Error: {e}. See frontend.log for details."`. -/
def llamaErrText (e : String) : String :=
  "Error: " ++ e ++ ". See frontend.log for details."

/-- The message of the chunk yielded by the pydantic-ai `except` handler:
`f"Error: {e}. Check your model and API key or base URL."`. -/
def agentErrText (e : String) : String :=
  "Error: " ++ e ++ ". Check your model and API key or base URL."

/-- A `try: for ...: yield ...; yield final except: yield error` loop over a
stream: one non-final chunk per non-empty delta, a final empty chunk if the
stream ends, or — at the first raised exception — a single final chunk with
the handler's message, flagged as internal error, and nothing after it. -/
def runStream (mkErr : String → String) : List StreamEvent → List ChatResponseChunk
  | [] => [ChatResponseChunk.mk "" true false]
  | .delta c :: rest =>
    (if c ≠ "" then [ChatResponseChunk.mk c false false] else []) ++ runStream mkErr rest
  | .raise e :: _ => [ChatResponseChunk.mk (mkErr e) true true]

/-- The state `complete_chat` reads: configuration options (already
stripped, as in the source), whether the configured llama path is a regular
file, the shared loader cells, the behaviour of the two external stream
iterators, and whether `_get_agent()` succeeds (its raised message
otherwise). -/
structure ChatEnv where
  backend : String
  llamaPath : String
  llamaPathIsFile : Bool
  llmLoaded : Bool
  llamaLoadError : Option String
  llamaStream : List StreamEvent
  agentSetup : Except String Unit
  agentStream : List StreamEvent

/-- Embedding of `PydanticAIAssistant.complete_chat(context)`: the full yielded chunk
list.  Empty conversation short-circuits before any configuration read; the
local in-process path is taken when backend is `"local"`, a model path is
configured and it is a regular file; otherwise the pydantic-ai path runs. -/
def completeChat (env : ChatEnv) (msgs : List ChatMessage) : List ChatResponseChunk :=
  if msgs = [] then [ChatResponseChunk.mk "" true false]
  else if env.backend = "local" ∧ env.llamaPath ≠ "" ∧ env.llamaPathIsFile = true then
    if env.llmLoaded = true then runStream llamaErrText env.llamaStream
    else if env.llamaLoadError.getD "" ≠ "" then
      [ChatResponseChunk.mk ("Model failed to load: " ++ env.llamaLoadError.getD "")
        true true]
    else
      [ChatResponseChunk.mk "Model is still loading. Try again in a moment." true true]
  else
    match env.agentSetup with
    | .error e =>
      [ChatResponseChunk.mk
        ("Setup error: " ++ e ++ ". Install with: pip install pydantic-ai openai")
        true true]
    | .ok _ => runStream agentErrText env.agentStream

end Contour

namespace Contour

theorem runStream_raise (mkErr : String → String) (e : String) (post : List StreamEvent) :
    ∀ pre : List StreamEvent, (∀ s, StreamEvent.raise s ∉ pre) →
      runStream mkErr (pre ++ .raise e :: post)
        = deltaChunks pre ++ [ChatResponseChunk.mk (mkErr e) true true] := by
  intro pre
  induction pre with
  | nil => intro _; rfl
  | cons ev rest ih =>
    intro h
    cases ev with
    | delta c =>
      have hrest := ih (fun s hs => h s (List.mem_cons_of_mem _ hs))
      simp only [List.cons_append, runStream, deltaChunks, List.filterMap_cons]
      by_cases hc : c = "" <;> simp_all [deltaChunks]
    | raise s => exact absurd (List.mem_cons_self _ _) (h s)

theorem deltaChunks_not_final (events : List StreamEvent) :
    ∀ ch ∈ deltaChunks events, ch.is_final = false ∧ ch.is_interal_error = false := by
  intro ch hch
  obtain ⟨ev, _, hev⟩ := List.mem_filterMap.mp hch
  cases ev with
  | delta c =>
    by_cases hc : c = "" <;> simp [hc] at hev
    exact hev ▸ ⟨rfl, rfl⟩
  | raise s => simp at hev

/-- C9. For a conversation with no messages, `complete_chat` yields
exactly one chunk — empty text, final, not an error — whatever the backend
selection, loader state, model behaviour or agent setup (`env` is
universally quantified, so no configuration or model is consulted). -/
theorem c9_empty_conversation (env : ChatEnv) :
    completeChat env [] = [ChatResponseChunk.mk "" true false] := rfl

/-- C6. If the llama-cpp streaming loop raises after some clean deltas,
`complete_chat` yields the chunks for those deltas (all non-final) followed
by exactly one further chunk: final, flagged as internal error, whose text
is `"Error: " ++ e ++ ". See frontend.log for details."` — the exception
text plus the pointer to the diagnostic log.  The exception is not
propagated: the embedding returns this chunk list for every such stream. -/
theorem c6_local_stream_error (env : ChatEnv) (msgs : List ChatMessage)
    (pre post : List StreamEvent) (e : String)
    (hmsgs : msgs ≠ [])
    (hb : env.backend = "local") (hp : env.llamaPath ≠ "")
    (hf : env.llamaPathIsFile = true)
    (hload : env.llmLoaded = true)
    (hstream : env.llamaStream = pre ++ .raise e :: post)
    (hpre : ∀ s, StreamEvent.raise s ∉ pre) :
    completeChat env msgs
      = deltaChunks pre ++ [ChatResponseChunk.mk (llamaErrText e) true true]
    ∧ llamaErrText e = "Error: " ++ e ++ ". See frontend.log for details."
    ∧ (∀ ch ∈ deltaChunks pre, ch.is_final = false) := by
  refine ⟨?_, rfl, fun ch hch => (deltaChunks_not_final pre ch hch).1⟩
  rw [completeChat, if_neg hmsgs, if_pos ⟨hb, hp, hf⟩, if_pos hload, hstream]
  exact runStream_raise llamaErrText e post pre hpre

/-- C6 witness. A stream that yields `"hi"` and then raises `"boom"`
produces exactly the chunk `"hi"` followed by the single final
internal-error chunk. -/
theorem c6_local_stream_error_witness :
    completeChat
        (ChatEnv.mk "local" "m.gguf" true true none
          [StreamEvent.delta "hi", StreamEvent.raise "boom"] (Except.ok ()) [])
        [ChatMessage.mk "user" "q"]
      = [ChatResponseChunk.mk "hi" false false,
         ChatResponseChunk.mk (llamaErrText "boom") true true] := by
  have h := (c6_local_stream_error
      (ChatEnv.mk "local" "m.gguf" true true none
        [StreamEvent.delta "hi", StreamEvent.raise "boom"] (Except.ok ()) [])
      [ChatMessage.mk "user" "q"]
      [StreamEvent.delta "hi"] [] "boom"
      (by decide) rfl (by decide) rfl rfl rfl (by intro s; simp)).1
  rw [h]
  rfl

end Contour

namespace Contour

/-! ## Model auto-detection (`_find_local_gguf_model`)

The filesystem is a view with `os.path.isfile`, `os.path.getmtime` and
`os.listdir`: `listing d = none` covers both "not a directory" and an
`os.listdir` exception (both make the loop `continue` to the next
directory).  The environment is a function from variable name to value
(empty string for unset, matching `os.environ.get(name, "")`). -/

/-- A read-only filesystem view for the directory scan. -/
structure FSView where
  isfile : String → Bool
  mtime : String → Nat
  listing : String → Option (List String)

/-- Embedding of `_is_probably_gguf(path)`: an existing regular file whose lowercased
name ends in `".gguf"`. -/
def isProbablyGguf (fsv : FSView) (path : String) : Bool :=
  fsv.isfile path && strEndsWith (strToLower path) ".gguf"

/-- The environment-variable override:
`(env1 or env2 or env3).strip()` over the three model-path variables. -/
def envOverridePath (env : String → String) : String :=
  strTrim (pyOr (env "THONNY_LLAMA_MODEL")
    (pyOr (env "LLAMA_MODEL_PATH") (env "LLAMA_CPP_MODEL")))

/-- The `common_dirs` list scanned by `_find_local_gguf_model`, given the
Thonny user directory and the expanded home directory. -/
def commonDirs (userDir home : String) : List String :=
  [userDir ++ "/models",
   home ++ "/models",
   home ++ "/Models",
   home ++ "/Documents/models",
   home ++ "/Documents/Models",
   home ++ "/Downloads",
   home ++ "/.cache/llama.cpp",
   home ++ "/.local/share/llama.cpp",
   home ++ "/Library/Application Support/llama.cpp"]

/-- One iteration of the directory loop: skip the directory when it cannot
be listed (not a dir, or `os.listdir` raised), otherwise append every entry
that is a `.gguf` regular file. -/
def scanStep (fsv : FSView) (acc : List String) (d : String) : List String :=
  match fsv.listing d with
  | none => acc
  | some names =>
    acc ++ (names.map (fun n => d ++ "/" ++ n)).filter (fun p => isProbablyGguf fsv p)

/-- The candidate collection loop of `_find_local_gguf_model` over a
directory list (non-recursive: only the direct entries of each directory
are examined). -/
def scanDirs (fsv : FSView) (dirs : List String) : List String :=
  dirs.foldl (scanStep fsv) []

/-- The comparison used by `candidates.sort(key=mtime, reverse=True)`:
stable descending order by modification time. -/
def mtimeGe (fsv : FSView) (a b : String) : Bool :=
  fsv.mtime b ≤ fsv.mtime a

/-- Embedding of `_find_local_gguf_model()`: environment override first (when it points
at an existing `.gguf` file), otherwise collect candidates from the common
directories and return the most recently modified one (`candidates[0]`
after the stable descending sort); `None` when there are no candidates. -/
def findLocalGgufModel (fsv : FSView) (env : String → String) (userDir home : String) :
    Option String :=
  if envOverridePath env ≠ "" ∧ isProbablyGguf fsv (envOverridePath env) = true then
    some (envOverridePath env)
  else if scanDirs fsv (commonDirs userDir home) = [] then none
  else ((scanDirs fsv (commonDirs userDir home)).mergeSort (mtimeGe fsv)).head?

end Contour

namespace Contour

theorem scanStep_eq (fsv : FSView) (acc : List String) (d : String) :
    scanStep fsv acc d = acc ++ scanStep fsv [] d := by
  rw [scanStep, scanStep]
  cases fsv.listing d <;> simp

theorem foldl_scanStep_acc (fsv : FSView) (dirs : List String) :
    ∀ acc : List String, dirs.foldl (scanStep fsv) acc = acc ++ dirs.foldl (scanStep fsv) [] := by
  induction dirs with
  | nil => intro acc; simp
  | cons d rest ih =>
    intro acc
    rw [List.foldl_cons, List.foldl_cons, ih (scanStep fsv acc d), ih (scanStep fsv [] d)]
    rw [scanStep_eq fsv acc d]
    simp

theorem scanDirs_cons (fsv : FSView) (d : String) (rest : List String) :
    scanDirs fsv (d :: rest) = scanStep fsv [] d ++ scanDirs fsv rest := by
  rw [scanDirs, List.foldl_cons, foldl_scanStep_acc fsv rest (scanStep fsv [] d)]
  rfl

theorem scanDirs_skips_unreadable (fsv : FSView) (dirs : List String) :
    scanDirs fsv dirs = scanDirs fsv (dirs.filter (fun d => (fsv.listing d).isSome)) := by
  induction dirs with
  | nil => rfl
  | cons d rest ih =>
    rw [scanDirs_cons, List.filter_cons]
    cases h : fsv.listing d with
    | none =>
      have hstep : scanStep fsv [] d = [] := by rw [scanStep, h]
      simp [h, hstep, ih]
    | some names =>
      simp only [h, Option.isSome_some, if_pos]
      rw [scanDirs_cons, ih]

theorem mtimeGe_trans (fsv : FSView) (a b c : String)
    (hab : mtimeGe fsv a b = true) (hbc : mtimeGe fsv b c = true) :
    mtimeGe fsv a c = true := by
  simp only [mtimeGe, decide_eq_true_eq] at hab hbc ⊢
  omega

theorem mtimeGe_total (fsv : FSView) (a b : String) :
    (mtimeGe fsv a b || mtimeGe fsv b a) = true := by
  simp only [mtimeGe, Bool.or_eq_true, decide_eq_true_eq]
  omega

/-- C8. With no usable environment override, `_find_local_gguf_model`
returns `None` exactly when the (non-recursive, unreadable-directories
skipped) scan of the common directories yields no `.gguf` file, and
otherwise returns a scanned candidate whose modification time is maximal
among all candidates; directories that cannot be listed contribute nothing
(scanning is equivalent to scanning only the listable directories, with no
exception escaping).  The embedding is a pure function of its inputs, so
repeated calls on unchanged inputs return the same result. -/
theorem c8_auto_detect (fsv : FSView) (env : String → String) (userDir home : String)
    (henv : envOverridePath env = "" ∨ isProbablyGguf fsv (envOverridePath env) = false) :
    (findLocalGgufModel fsv env userDir home = none
      ↔ scanDirs fsv (commonDirs userDir home) = [])
    ∧ (∀ p, findLocalGgufModel fsv env userDir home = some p →
        p ∈ scanDirs fsv (commonDirs userDir home)
        ∧ ∀ q ∈ scanDirs fsv (commonDirs userDir home), fsv.mtime q ≤ fsv.mtime p)
    ∧ (∀ dirs : List String,
        scanDirs fsv dirs = scanDirs fsv (dirs.filter (fun d => (fsv.listing d).isSome))) := by
  have hguard : ¬ (envOverridePath env ≠ "" ∧ isProbablyGguf fsv (envOverridePath env) = true) := by
    rintro ⟨h1, h2⟩
    rcases henv with h | h
    · exact h1 h
    · rw [h] at h2
      exact Bool.false_ne_true h2
  refine ⟨?_, fun p hp => ?_, scanDirs_skips_unreadable fsv⟩
  · rw [findLocalGgufModel, if_neg hguard]
    by_cases hc : scanDirs fsv (commonDirs userDir home) = []
    · simp [hc]
    · rw [if_neg hc]
      constructor
      · intro hh
        cases hms : (scanDirs fsv (commonDirs userDir home)).mergeSort (mtimeGe fsv) with
        | nil =>
          have hperm := List.mergeSort_perm
            (scanDirs fsv (commonDirs userDir home)) (mtimeGe fsv)
          rw [hms] at hperm
          exact (List.Perm.nil_eq hperm).symm
        | cons x t =>
          rw [hms] at hh
          exact absurd hh (by simp)
      · intro hh
        exact absurd hh hc
  · rw [findLocalGgufModel, if_neg hguard] at hp
    by_cases hc : scanDirs fsv (commonDirs userDir home) = []
    · rw [if_pos hc] at hp
      exact absurd hp (by simp)
    · rw [if_neg hc] at hp
      cases hms : (scanDirs fsv (commonDirs userDir home)).mergeSort (mtimeGe fsv) with
      | nil =>
        rw [hms] at hp
        exact absurd hp (by simp)
      | cons x t =>
        rw [hms] at hp
        have hx : x = p := by simpa using hp
        subst hx
        have hsorted := @List.sorted_mergeSort String (mtimeGe fsv)
          (fun a b c hab hbc => mtimeGe_trans fsv a b c hab hbc)
          (fun a b => mtimeGe_total fsv a b)
          (scanDirs fsv (commonDirs userDir home))
        rw [hms] at hsorted
        have hmem : x ∈ scanDirs fsv (commonDirs userDir home) := by
          have : x ∈ (scanDirs fsv (commonDirs userDir home)).mergeSort (mtimeGe fsv) := by
            rw [hms]
            exact List.mem_cons_self x t
          exact List.mem_mergeSort.mp this
        refine ⟨hmem, fun q hq => ?_⟩
        have hq' : q ∈ (scanDirs fsv (commonDirs userDir home)).mergeSort (mtimeGe fsv) :=
          List.mem_mergeSort.mpr hq
        rw [hms] at hq'
        rcases List.mem_cons.mp hq' with rfl | hq''
        · exact le_rfl
        · have := (List.pairwise_cons.mp hsorted).1 q hq''
          simpa [mtimeGe] using this

/-- C8 witness. A concrete view: the user-dir models directory holds
`a.gguf` (mtime 5) and `b.gguf` (mtime 9), the home models directory is
unreadable, no environment override; the newest candidate `b.gguf` is
returned. -/
theorem c8_auto_detect_witness :
    (findLocalGgufModel
        (FSView.mk (fun _ => true)
          (fun p => if p = "ud/models/b.gguf" then 9 else 5)
          (fun d => if d = "ud/models" then some ["a.gguf", "b.gguf"] else none))
        (fun _ => "") "ud" "h").isSome = true
    ∧ ∀ p, findLocalGgufModel
        (FSView.mk (fun _ => true)
          (fun p => if p = "ud/models/b.gguf" then 9 else 5)
          (fun d => if d = "ud/models" then some ["a.gguf", "b.gguf"] else none))
        (fun _ => "") "ud" "h" = some p →
        p ∈ scanDirs
          (FSView.mk (fun _ => true)
            (fun p => if p = "ud/models/b.gguf" then 9 else 5)
            (fun d => if d = "ud/models" then some ["a.gguf", "b.gguf"] else none))
          (commonDirs "ud" "h") := by
  have h := c8_auto_detect
    (FSView.mk (fun _ => true)
      (fun p => if p = "ud/models/b.gguf" then 9 else 5)
      (fun d => if d = "ud/models" then some ["a.gguf", "b.gguf"] else none))
    (fun _ => "") "ud" "h" (Or.inl (by decide))
  constructor
  · cases hr : findLocalGgufModel
        (FSView.mk (fun _ => true)
          (fun p => if p = "ud/models/b.gguf" then 9 else 5)
          (fun d => if d = "ud/models" then some ["a.gguf", "b.gguf"] else none))
        (fun _ => "") "ud" "h" with
    | none =>
      have := h.1.mp hr
      revert this
      decide
    | some p => rfl
  · exact fun p hp => (h.2.1 p hp).1

end Contour
